import Mathlib

/-!
Verification development for the EinStein wuerfelt nicht! engine
(`src/core/game_engine.py`, `src/core/pmcts.py`, `src/ai_battle.py`).

The Python code is shallowly embedded: the 5x5 numpy board becomes a
function `Fin 5 → Fin 5 → ℤ`, pure functions become Lean functions, and
the stochastic parts of the search (die rolls, `random.choice`,
`np.random.choice`) are driven by explicit oracle parameters
`ℕ → ℕ`, so every theorem quantifies over all possible random draws.
Node objects of the PMCTS tree live in explicit list arenas indexed by
natural numbers; Python object sharing becomes index sharing.
-/

/-! ## Game engine (`src/core/game_engine.py`) -/

/-- A 5x5 board of integer cells: 0 empty, 1..6 red tokens, 7..12 blue
tokens (mirrors the numpy array used by `EinsteinGame`). -/
def Board : Type := Fin 5 → Fin 5 → ℤ

/-- A move `(from_x, from_y, to_x, to_y)`, as the Python 4-tuples. -/
def Move : Type := ℤ × ℤ × ℤ × ℤ

instance : DecidableEq Move := by unfold Move; infer_instance

instance : Inhabited Move := ⟨((0 : ℤ), (0 : ℤ), (0 : ℤ), (0 : ℤ))⟩

instance : DecidableEq Board := by unfold Board; infer_instance

/-- `self.board_size = 5`. -/
def board_size : ℕ := 5

/-- Read a cell at integer coordinates.  The Python code only indexes the
numpy array at pre-validated in-bounds coordinates; out-of-range reads
(never exercised by the claims) are given the junk value 0 here. -/
def cell_get (b : Board) (x y : ℤ) : ℤ :=
  if hx : 0 ≤ x ∧ x < 5 then
    if hy : 0 ≤ y ∧ y < 5 then
      b ⟨x.toNat, by omega⟩ ⟨y.toNat, by omega⟩
    else 0
  else 0

/-- All 25 cells in numpy row-major (C) order, the order in which
`np.where` reports matches. -/
def all_cells : List (Fin 5 × Fin 5) :=
  (List.finRange 5).flatMap (fun i => (List.finRange 5).map (fun j => (i, j)))

/-- `EinsteinGame._piece_exists_on_board`: `np.any(board == piece)`. -/
def piece_exists_on_board (b : Board) (piece : ℤ) : Bool :=
  decide (∃ i j, b i j = piece)

/-- `EinsteinGame._find_piece_position`: the first cell (row-major) whose
value is `piece`, as returned by `np.where`. -/
def find_piece_position (b : Board) (piece : ℤ) : Option (Fin 5 × Fin 5) :=
  all_cells.find? (fun c => b c.1 c.2 == piece)

/-- The integers `lo, lo+1, ..., hi` in increasing order
(Python `range(lo, hi+1)`). -/
def rangeZ (lo hi : ℤ) : List ℤ :=
  (List.range (hi + 1 - lo).toNat).map (fun (k : ℕ) => lo + (k : ℤ))

/-- `EinsteinGame._find_movable_pieces`: the canonical token if alive,
otherwise the nearest alive neighbours above (first of the upward scan)
and below (first of the downward scan), upper candidate listed first. -/
def find_movable_pieces (b : Board) (die : ℕ) (player : ℤ) : List ℤ :=
  let target_piece : ℤ := if player = 1 then (die : ℤ) + 6 else (die : ℤ)
  let lo : ℤ := if player = 1 then 7 else 1
  let hi : ℤ := if player = 1 then 12 else 6
  let alive := (rangeZ lo hi).filter (fun p => piece_exists_on_board b p)
  if target_piece ∈ alive then [target_piece]
  else
    let upper := (rangeZ (target_piece + 1) hi).find? (fun p => decide (p ∈ alive))
    let lower := ((rangeZ lo (target_piece - 1)).reverse).find? (fun p => decide (p ∈ alive))
    upper.toList ++ lower.toList

/-- `EinsteinGame._get_movement_directions`: blue (`player == 1`) moves
up/left/up-left, red moves down/right/down-right. -/
def get_movement_directions (player : ℤ) : List (ℤ × ℤ) :=
  if player = 1 then [(-1, 0), (0, -1), (-1, -1)] else [(1, 0), (0, 1), (1, 1)]

/-- `EinsteinGame._is_position_valid`. -/
def is_position_valid (x y : ℤ) : Bool :=
  decide (0 ≤ x ∧ x < (board_size : ℤ) ∧ 0 ≤ y ∧ y < (board_size : ℤ))

/-- `EinsteinGame.get_legal_moves`. -/
def get_legal_moves (b : Board) (die : ℕ) (player : ℤ) : List Move :=
  (find_movable_pieces b die player).flatMap (fun piece =>
    match find_piece_position b piece with
    | none => []
    | some pos =>
      (get_movement_directions player).filterMap (fun dr =>
        let to_x := (pos.1 : ℤ) + dr.1
        let to_y := (pos.2 : ℤ) + dr.2
        if is_position_valid to_x to_y then
          some ((pos.1 : ℤ), (pos.2 : ℤ), to_x, to_y)
        else none))

/-- `EinsteinGame.make_move`: copy the board, clear the source, then write
the moving piece into the destination (so on a degenerate move with equal
endpoints the later destination write wins, as in the Python code). -/
def make_move (b : Board) (m : Move) : Board :=
  fun i j =>
    if (i : ℤ) = m.2.2.1 ∧ (j : ℤ) = m.2.2.2 then cell_get b m.1 m.2.1
    else if (i : ℤ) = m.1 ∧ (j : ℤ) = m.2.1 then 0
    else b i j

/-- Number of cells holding a red token (`np.sum((board >= 1) & (board <= 6))`). -/
def red_count (b : Board) : ℕ :=
  all_cells.countP (fun c => decide (1 ≤ b c.1 c.2 ∧ b c.1 c.2 ≤ 6))

/-- Number of cells holding a blue token. -/
def blue_count (b : Board) : ℕ :=
  all_cells.countP (fun c => decide (7 ≤ b c.1 c.2 ∧ b c.1 c.2 ≤ 12))

/-- `EinsteinGame.is_game_over`. -/
def is_game_over (b : Board) : Bool :=
  if 1 ≤ b 4 4 ∧ b 4 4 ≤ 6 then true
  else if 7 ≤ b 0 0 ∧ b 0 0 ≤ 12 then true
  else if red_count b = 0 ∨ blue_count b = 0 then true
  else false

/-- `EinsteinGame.get_winner`: -1 when a red token (1..6) sits on (4,4) or
blue has no tokens, +1 when a blue token (7..12) sits on (0,0) or red has
no tokens, 0 otherwise. -/
def get_winner (b : Board) : ℤ :=
  if 1 ≤ b 4 4 ∧ b 4 4 ≤ 6 then -1
  else if 7 ≤ b 0 0 ∧ b 0 0 ≤ 12 then 1
  else if red_count b = 0 then 1
  else if blue_count b = 0 then -1
  else 0

/-! ## Claim-side predicates for legal-move enumeration (spec section 4.1) -/

/-- A cell of the board holds the given token. -/
def present (b : Board) (piece : ℤ) : Prop := ∃ i j, b i j = piece

instance (b : Board) (piece : ℤ) : Decidable (present b piece) := by
  unfold present; infer_instance

/-- Token range of a player: 7..12 for `player = 1`, 1..6 otherwise. -/
def in_player_range (player piece : ℤ) : Prop :=
  if player = 1 then 7 ≤ piece ∧ piece ≤ 12 else 1 ≤ piece ∧ piece ≤ 6

/-- Canonical token for a die: `die + 6` for `player = 1`, `die` otherwise. -/
def canonical_token (player : ℤ) (die : ℕ) : ℤ :=
  if player = 1 then (die : ℤ) + 6 else (die : ℤ)

/-- The EinStein nearest-neighbours rule, written from the spec: the
canonical token when present; otherwise the smallest present token above
it and/or the largest present token below it, within the player's range. -/
def nearest_neighbour_selected (b : Board) (die : ℕ) (player piece : ℤ) : Prop :=
  (present b (canonical_token player die) ∧ piece = canonical_token player die) ∨
  (¬ present b (canonical_token player die) ∧
    in_player_range player piece ∧ present b piece ∧
    ((canonical_token player die < piece ∧
        ∀ q, in_player_range player q → present b q →
          canonical_token player die < q → piece ≤ q) ∨
     (piece < canonical_token player die ∧
        ∀ q, in_player_range player q → present b q →
          q < canonical_token player die → q ≤ piece)))

/-! ## Helper lemmas about the engine -/

lemma piece_exists_iff {b : Board} {p : ℤ} :
    piece_exists_on_board b p = true ↔ present b p := by
  simp [piece_exists_on_board, present]

lemma mem_rangeZ {lo hi x : ℤ} : x ∈ rangeZ lo hi ↔ lo ≤ x ∧ x ≤ hi := by
  simp only [rangeZ, List.mem_map, List.mem_range]
  constructor
  · rintro ⟨k, hk, rfl⟩; omega
  · rintro ⟨h1, h2⟩
    exact ⟨(x - lo).toNat, by omega, by omega⟩

lemma rangeZ_sorted (lo hi : ℤ) : (rangeZ lo hi).Pairwise (· < ·) := by
  unfold rangeZ
  refine List.pairwise_map.mpr ?_
  refine (List.pairwise_lt_range _).imp ?_
  intro a b h
  omega

lemma find?_pairwise {α : Type} {r : α → α → Prop} {p : α → Bool} {a : α} :
    ∀ {l : List α}, l.Pairwise r → l.find? p = some a →
      ∀ x ∈ l, p x = true → a = x ∨ r a x := by
  intro l
  induction l with
  | nil => intro _ h; simp at h
  | cons hd tl ih =>
    intro hpw hfind x hx hpx
    rcases List.pairwise_cons.mp hpw with ⟨hhd, htl⟩
    by_cases hp : p hd = true
    · rw [List.find?_cons_of_pos _ hp] at hfind
      cases hfind
      rcases List.mem_cons.mp hx with rfl | hx2
      · exact Or.inl rfl
      · exact Or.inr (hhd x hx2)
    · rw [List.find?_cons_of_neg _ (by simpa using hp)] at hfind
      rcases List.mem_cons.mp hx with rfl | hx2
      · exact absurd hpx hp
      · exact ih htl hfind x hx2 hpx

lemma find_piece_position_holds {b : Board} {p : ℤ} {pos : Fin 5 × Fin 5}
    (h : find_piece_position b p = some pos) : b pos.1 pos.2 = p := by
  have := List.find?_some h
  simpa using this

lemma cell_get_coe (b : Board) (i j : Fin 5) :
    cell_get b (i : ℤ) (j : ℤ) = b i j := by
  have hi : (0 : ℤ) ≤ (i : ℤ) ∧ (i : ℤ) < 5 := ⟨Int.natCast_nonneg _, by exact_mod_cast i.isLt⟩
  have hj : (0 : ℤ) ≤ (j : ℤ) ∧ (j : ℤ) < 5 := ⟨Int.natCast_nonneg _, by exact_mod_cast j.isLt⟩
  rw [cell_get, dif_pos hi, dif_pos hj]
  congr 1

lemma movable_core {b : Board} {lo hi target p : ℤ}
    (hlo : lo ≤ target) (hhi : target ≤ hi)
    (hp : p ∈ (if target ∈ (rangeZ lo hi).filter (fun x => piece_exists_on_board b x) then [target]
          else ((rangeZ (target + 1) hi).find?
              (fun x => decide (x ∈ (rangeZ lo hi).filter (fun x => piece_exists_on_board b x)))).toList ++
            (((rangeZ lo (target - 1)).reverse).find?
              (fun x => decide (x ∈ (rangeZ lo hi).filter (fun x => piece_exists_on_board b x)))).toList)) :
    (lo ≤ p ∧ p ≤ hi) ∧
    ((present b target ∧ p = target) ∨
     (¬ present b target ∧ present b p ∧
       ((target < p ∧ ∀ q, lo ≤ q → q ≤ hi → present b q → target < q → p ≤ q) ∨
        (p < target ∧ ∀ q, lo ≤ q → q ≤ hi → present b q → q < target → q ≤ p)))) := by
  set alive := (rangeZ lo hi).filter (fun x => piece_exists_on_board b x) with halive
  have alive_mem : ∀ x : ℤ, x ∈ alive ↔ (lo ≤ x ∧ x ≤ hi) ∧ present b x := by
    intro x
    rw [halive, List.mem_filter, mem_rangeZ, piece_exists_iff]
  by_cases ht : target ∈ alive
  · rw [if_pos ht] at hp
    have hpt : p = target := by simpa using hp
    subst hpt
    rcases (alive_mem p).mp ht with ⟨hb, hpres⟩
    exact ⟨hb, Or.inl ⟨hpres, rfl⟩⟩
  · rw [if_neg ht] at hp
    have hnt : ¬ present b target := by
      intro hpres
      exact ht ((alive_mem target).mpr ⟨⟨hlo, hhi⟩, hpres⟩)
    rcases List.mem_append.mp hp with hup | hdown
    · have hfind : (rangeZ (target + 1) hi).find?
          (fun x => decide (x ∈ alive)) = some p := by simpa using hup
      have hmem : p ∈ rangeZ (target + 1) hi := List.mem_of_find?_eq_some hfind
      rw [mem_rangeZ] at hmem
      have hsat : p ∈ alive := by simpa using List.find?_some hfind
      rcases (alive_mem p).mp hsat with ⟨hb, hpres⟩
      refine ⟨hb, Or.inr ⟨hnt, hpres, Or.inl ⟨by omega, ?_⟩⟩⟩
      intro q hq1 hq2 hqpres hqgt
      have hqmem : q ∈ rangeZ (target + 1) hi := mem_rangeZ.mpr ⟨by omega, hq2⟩
      have hqsat : decide (q ∈ alive) = true := by
        simpa using (alive_mem q).mpr ⟨⟨hq1, hq2⟩, hqpres⟩
      rcases find?_pairwise (rangeZ_sorted (target + 1) hi) hfind q hqmem hqsat with h | h
      · omega
      · exact le_of_lt h
    · have hfind : ((rangeZ lo (target - 1)).reverse).find?
          (fun x => decide (x ∈ alive)) = some p := by simpa using hdown
      have hmem : p ∈ (rangeZ lo (target - 1)).reverse := List.mem_of_find?_eq_some hfind
      rw [List.mem_reverse, mem_rangeZ] at hmem
      have hsat : p ∈ alive := by simpa using List.find?_some hfind
      rcases (alive_mem p).mp hsat with ⟨hb, hpres⟩
      have hsorted : ((rangeZ lo (target - 1)).reverse).Pairwise (· > ·) :=
        List.pairwise_reverse.mpr (rangeZ_sorted lo (target - 1))
      refine ⟨hb, Or.inr ⟨hnt, hpres, Or.inr ⟨by omega, ?_⟩⟩⟩
      intro q hq1 hq2 hqpres hqlt
      have hqmem : q ∈ (rangeZ lo (target - 1)).reverse :=
        List.mem_reverse.mpr (mem_rangeZ.mpr ⟨hq1, by omega⟩)
      have hqsat : decide (q ∈ alive) = true := by
        simpa using (alive_mem q).mpr ⟨⟨hq1, hq2⟩, hqpres⟩
      rcases find?_pairwise hsorted hfind q hqmem hqsat with h | h
      · omega
      · exact le_of_lt h

lemma sound_of_core {b : Board} {die : ℕ} {player p lo hi target : ℤ}
    (hc : canonical_token player die = target)
    (hr : ∀ x : ℤ, in_player_range player x ↔ (lo ≤ x ∧ x ≤ hi))
    (hb : lo ≤ p ∧ p ≤ hi)
    (hsel : (present b target ∧ p = target) ∨
      (¬ present b target ∧ present b p ∧
        ((target < p ∧ ∀ q, lo ≤ q → q ≤ hi → present b q → target < q → p ≤ q) ∨
         (p < target ∧ ∀ q, lo ≤ q → q ≤ hi → present b q → q < target → q ≤ p)))) :
    in_player_range player p ∧ nearest_neighbour_selected b die player p := by
  subst hc
  refine ⟨(hr p).mpr hb, ?_⟩
  unfold nearest_neighbour_selected
  rcases hsel with ⟨hpres, rfl⟩ | ⟨hnp, hpres, hcase⟩
  · exact Or.inl ⟨hpres, rfl⟩
  · refine Or.inr ⟨hnp, (hr p).mpr hb, hpres, ?_⟩
    rcases hcase with ⟨hlt, hmin⟩ | ⟨hgt, hmax⟩
    · refine Or.inl ⟨hlt, ?_⟩
      intro q hq hqp hqgt
      rcases (hr q).mp hq with ⟨h1, h2⟩
      exact hmin q h1 h2 hqp hqgt
    · refine Or.inr ⟨hgt, ?_⟩
      intro q hq hqp hqlt
      rcases (hr q).mp hq with ⟨h1, h2⟩
      exact hmax q h1 h2 hqp hqlt

lemma find_movable_pieces_sound {b : Board} {die : ℕ} {player p : ℤ}
    (hd1 : 1 ≤ die) (hd2 : die ≤ 6)
    (hp : p ∈ find_movable_pieces b die player) :
    in_player_range player p ∧ nearest_neighbour_selected b die player p := by
  by_cases hpl : player = 1
  · have hp2 : p ∈ (if ((die : ℤ) + 6) ∈ (rangeZ 7 12).filter (fun x => piece_exists_on_board b x)
        then [((die : ℤ) + 6)]
        else ((rangeZ (((die : ℤ) + 6) + 1) 12).find?
            (fun x => decide (x ∈ (rangeZ 7 12).filter (fun x => piece_exists_on_board b x)))).toList ++
          (((rangeZ 7 (((die : ℤ) + 6) - 1)).reverse).find?
            (fun x => decide (x ∈ (rangeZ 7 12).filter (fun x => piece_exists_on_board b x)))).toList) := by
      simpa [find_movable_pieces, hpl] using hp
    have hcore := movable_core (by omega) (by omega) hp2
    refine sound_of_core ?_ ?_ hcore.1 hcore.2
    · simp [canonical_token, hpl]
    · intro x
      simp [in_player_range, hpl]
  · have hp2 : p ∈ (if ((die : ℤ)) ∈ (rangeZ 1 6).filter (fun x => piece_exists_on_board b x)
        then [((die : ℤ))]
        else ((rangeZ ((die : ℤ) + 1) 6).find?
            (fun x => decide (x ∈ (rangeZ 1 6).filter (fun x => piece_exists_on_board b x)))).toList ++
          (((rangeZ 1 ((die : ℤ) - 1)).reverse).find?
            (fun x => decide (x ∈ (rangeZ 1 6).filter (fun x => piece_exists_on_board b x)))).toList) := by
      simpa [find_movable_pieces, hpl] using hp
    have hcore := movable_core (by omega) (by omega) hp2
    refine sound_of_core ?_ ?_ hcore.1 hcore.2
    · simp [canonical_token, hpl]
    · intro x
      simp [in_player_range, hpl]

lemma mem_get_legal_moves {b : Board} {die : ℕ} {player : ℤ} {m : Move}
    (h : m ∈ get_legal_moves b die player) :
    ∃ piece pos dr, piece ∈ find_movable_pieces b die player ∧
      find_piece_position b piece = some pos ∧
      dr ∈ get_movement_directions player ∧
      is_position_valid ((pos.1 : ℤ) + dr.1) ((pos.2 : ℤ) + dr.2) = true ∧
      m = ((pos.1 : ℤ), (pos.2 : ℤ), (pos.1 : ℤ) + dr.1, (pos.2 : ℤ) + dr.2) := by
  rcases List.mem_flatMap.mp h with ⟨piece, hpiece, hm⟩
  cases hpos : find_piece_position b piece with
  | none => rw [hpos] at hm; simp at hm
  | some pos =>
    rw [hpos] at hm
    rcases List.mem_filterMap.mp hm with ⟨dr, hdr, hval⟩
    by_cases hv : is_position_valid ((pos.1 : ℤ) + dr.1) ((pos.2 : ℤ) + dr.2) = true
    · rw [if_pos hv] at hval
      refine ⟨piece, pos, dr, hpiece, hpos, hdr, hv, ?_⟩
      exact (Option.some_inj.mp hval).symm
    · rw [if_neg hv] at hval
      exact absurd hval (by simp)

lemma legal_moves_sound_aux (b : Board) (die : ℕ) (player : ℤ) (m : Move)
    (hd1 : 1 ≤ die) (hd2 : die ≤ 6) (_hpl : player = 1 ∨ player = -1)
    (hm : m ∈ get_legal_moves b die player) :
    (∃ piece, cell_get b m.1 m.2.1 = piece ∧ in_player_range player piece ∧
      nearest_neighbour_selected b die player piece) ∧
    is_position_valid m.2.2.1 m.2.2.2 = true ∧
    (∃ dr ∈ get_movement_directions player,
      m.2.2.1 = m.1 + dr.1 ∧ m.2.2.2 = m.2.1 + dr.2) := by
  rcases mem_get_legal_moves hm with ⟨piece, pos, dr, hpiece, hpos, hdr, hval, rfl⟩
  have hcell : b pos.1 pos.2 = piece := find_piece_position_holds hpos
  have hsound := find_movable_pieces_sound hd1 hd2 hpiece
  refine ⟨⟨piece, ?_, hsound.1, hsound.2⟩, hval, ⟨dr, hdr, rfl, rfl⟩⟩
  rw [show (((pos.1 : ℤ), (pos.2 : ℤ), (pos.1 : ℤ) + dr.1, (pos.2 : ℤ) + dr.2) : Move).1
      = (pos.1 : ℤ) from rfl]
  rw [show (((pos.1 : ℤ), (pos.2 : ℤ), (pos.1 : ℤ) + dr.1, (pos.2 : ℤ) + dr.2) : Move).2.1
      = (pos.2 : ℤ) from rfl]
  rw [cell_get_coe]
  exact hcell

/-- C1: every move emitted by `get_legal_moves` starts at a cell holding a
token of the moving player selected by the nearest-neighbours rule, and
ends in-bounds at source plus one of the player's three direction
vectors. -/
theorem legal_moves_sound (b : Board) (die : ℕ) (player : ℤ) (m : Move)
    (hd1 : 1 ≤ die) (hd2 : die ≤ 6) (hpl : player = 1 ∨ player = -1)
    (hm : m ∈ get_legal_moves b die player) :
    (∃ piece, cell_get b m.1 m.2.1 = piece ∧ in_player_range player piece ∧
      nearest_neighbour_selected b die player piece) ∧
    is_position_valid m.2.2.1 m.2.2.2 = true ∧
    (∃ dr ∈ get_movement_directions player,
      m.2.2.1 = m.1 + dr.1 ∧ m.2.2.2 = m.2.1 + dr.2) :=
  legal_moves_sound_aux b die player m hd1 hd2 hpl hm

/-- Board with the single red token 1 on (4,3). -/
def bA : Board := fun i j => if i = 4 ∧ j = 3 then 1 else 0

theorem legal_moves_sound_witness :
    (1 ≤ 1 ∧ (1 : ℕ) ≤ 6 ∧ ((-1 : ℤ) = 1 ∨ (-1 : ℤ) = -1) ∧
      (((4 : ℤ), (3 : ℤ), (4 : ℤ), (4 : ℤ)) : Move) ∈ get_legal_moves bA 1 (-1)) ∧
    ((∃ piece, cell_get bA (4 : ℤ) (3 : ℤ) = piece ∧ in_player_range (-1) piece ∧
        nearest_neighbour_selected bA 1 (-1) piece) ∧
      is_position_valid (4 : ℤ) (4 : ℤ) = true ∧
      (∃ dr ∈ get_movement_directions (-1),
        (4 : ℤ) = (4 : ℤ) + dr.1 ∧ (4 : ℤ) = (3 : ℤ) + dr.2)) :=
  ⟨⟨by decide, by decide, by decide, by decide⟩,
    legal_moves_sound bA 1 (-1) ((4 : ℤ), (3 : ℤ), (4 : ℤ), (4 : ℤ))
      (by decide) (by decide) (by decide) (by decide)⟩

/-! ## C2: winner signs -/

/-- Board with the single red token 3 on (4,4). -/
def bRed : Board := fun i j => if i = 4 ∧ j = 4 then 3 else 0

/-- Board with the single blue token 8 on (0,0). -/
def bBlue : Board := fun i j => if i = 0 ∧ j = 0 then 8 else 0

/-- C2 counterexample: on a board whose (4,4) cell holds the red token 3,
`get_winner` returns -1, not the claimed red value +1. -/
theorem winner_sign_counterexample :
    get_winner bRed = -1 ∧ ¬ get_winner bRed = 1 := by decide

/-- C2 (amended): in this code red is -1 and blue is +1: a token 1..6 on
(4,4) makes `get_winner` return -1, and a token 7..12 on (0,0) (with no
red token on (4,4), which is checked first) makes it return +1. -/
theorem winner_sign_corrected (b b2 : Board)
    (hr : 1 ≤ b 4 4 ∧ b 4 4 ≤ 6)
    (hb : 7 ≤ b2 0 0 ∧ b2 0 0 ≤ 12) (hnr : ¬(1 ≤ b2 4 4 ∧ b2 4 4 ≤ 6)) :
    get_winner b = -1 ∧ get_winner b2 = 1 := by
  constructor
  · rw [get_winner, if_pos hr]
  · rw [get_winner, if_neg hnr, if_pos hb]

theorem winner_sign_corrected_witness :
    ((1 ≤ bRed 4 4 ∧ bRed 4 4 ≤ 6) ∧ (7 ≤ bBlue 0 0 ∧ bBlue 0 0 ≤ 12) ∧
      ¬(1 ≤ bBlue 4 4 ∧ bBlue 4 4 ≤ 6)) ∧
    get_winner bRed = -1 ∧ get_winner bBlue = 1 :=
  ⟨⟨by decide, by decide, by decide⟩,
    winner_sign_corrected bRed bBlue (by decide) (by decide) (by decide)⟩

/-! ## C8: frame property of make_move -/

/-- Board with the single red token 1 on (0,0). -/
def bC8 : Board := fun i j => if i = 0 ∧ j = 0 then 1 else 0

/-- C8 counterexample: applying the degenerate in-bounds move
(0,0)→(0,0) leaves the source cell holding its token (the destination
write happens after the source clear), so the claimed "source cell now
empty" fails for this board/move pair. -/
theorem make_move_frame_counterexample :
    make_move bC8 ((0 : ℤ), (0 : ℤ), (0 : ℤ), (0 : ℤ)) 0 0 = 1 ∧
    ¬ make_move bC8 ((0 : ℤ), (0 : ℤ), (0 : ℤ), (0 : ℤ)) 0 0 = 0 := by decide

/-- C8 (amended): for every board and every in-bounds move whose source
and destination differ, the returned board holds the moved token at the
destination, is empty at the source, and agrees with the input board on
the other 23 cells; the input board itself is a pure value and is never
mutated (the embedding is functional). -/
theorem make_move_frame (b : Board) (fx fy tx ty : ℤ)
    (_hf : 0 ≤ fx ∧ fx < 5 ∧ 0 ≤ fy ∧ fy < 5)
    (_ht : 0 ≤ tx ∧ tx < 5 ∧ 0 ≤ ty ∧ ty < 5)
    (hne : ¬(fx = tx ∧ fy = ty)) :
    (∀ i j : Fin 5, (i : ℤ) = tx ∧ (j : ℤ) = ty →
      make_move b (fx, fy, tx, ty) i j = cell_get b fx fy) ∧
    (∀ i j : Fin 5, (i : ℤ) = fx ∧ (j : ℤ) = fy →
      make_move b (fx, fy, tx, ty) i j = 0) ∧
    (∀ i j : Fin 5, ¬((i : ℤ) = fx ∧ (j : ℤ) = fy) → ¬((i : ℤ) = tx ∧ (j : ℤ) = ty) →
      make_move b (fx, fy, tx, ty) i j = b i j) := by
  refine ⟨?_, ?_, ?_⟩
  · intro i j hij
    show (if (i : ℤ) = tx ∧ (j : ℤ) = ty then cell_get b fx fy
      else if (i : ℤ) = fx ∧ (j : ℤ) = fy then 0 else b i j) = cell_get b fx fy
    rw [if_pos hij]
  · intro i j hij
    have hnt : ¬((i : ℤ) = tx ∧ (j : ℤ) = ty) := by
      rintro ⟨h1, h2⟩
      exact hne ⟨by omega, by omega⟩
    show (if (i : ℤ) = tx ∧ (j : ℤ) = ty then cell_get b fx fy
      else if (i : ℤ) = fx ∧ (j : ℤ) = fy then 0 else b i j) = 0
    rw [if_neg hnt, if_pos hij]
  · intro i j h1 h2
    show (if (i : ℤ) = tx ∧ (j : ℤ) = ty then cell_get b fx fy
      else if (i : ℤ) = fx ∧ (j : ℤ) = fy then 0 else b i j) = b i j
    rw [if_neg h2, if_neg h1]

theorem make_move_frame_witness :
    ((0 ≤ (0 : ℤ) ∧ (0 : ℤ) < 5 ∧ 0 ≤ (0 : ℤ) ∧ (0 : ℤ) < 5) ∧
      (0 ≤ (0 : ℤ) ∧ (0 : ℤ) < 5 ∧ 0 ≤ (1 : ℤ) ∧ (1 : ℤ) < 5) ∧
      ¬((0 : ℤ) = 0 ∧ (0 : ℤ) = 1)) ∧
    ((∀ i j : Fin 5, (i : ℤ) = 0 ∧ (j : ℤ) = 1 →
        make_move bC8 (0, 0, 0, 1) i j = cell_get bC8 0 0) ∧
      (∀ i j : Fin 5, (i : ℤ) = 0 ∧ (j : ℤ) = 0 →
        make_move bC8 (0, 0, 0, 1) i j = 0) ∧
      (∀ i j : Fin 5, ¬((i : ℤ) = 0 ∧ (j : ℤ) = 0) → ¬((i : ℤ) = 0 ∧ (j : ℤ) = 1) →
        make_move bC8 (0, 0, 0, 1) i j = bC8 i j)) :=
  ⟨⟨by decide, by decide, by decide⟩,
    make_move_frame bC8 0 0 0 1 (by decide) (by decide) (by decide)⟩

/-! ## Rollout simulation (`MCTSNode.simulate`, `src/core/pmcts.py`) -/

/-- The random-playout loop of `MCTSNode.simulate`: while the game is not
over and fewer than `max_moves` plies were played, roll a die (oracle
draw `rng k % 6 + 1` models `random.randint(1, 6)`), stop if there is no
legal move, otherwise play an oracle-chosen legal move
(`random.choice`) and flip the player.  Returns the final board. -/
def rollout (rng : ℕ → ℕ) : ℕ → ℕ → Board → ℤ → Board
  | _, 0, b, _ => b
  | k, fuel + 1, b, player =>
    if is_game_over b then b
    else
      let die := rng k % 6 + 1
      let legal_moves := get_legal_moves b die player
      if legal_moves = [] then b
      else
        let m := legal_moves.getD (rng (k + 1) % legal_moves.length) default
        rollout rng (k + 2) fuel (make_move b m) (-player)

/-- `MCTSNode.simulate`: run the playout from the node's board and player,
then score the final board: 0.0 when the node's player is the winner,
1.0 when the opponent is, 0.5 otherwise. -/
def simulate (rng : ℕ → ℕ) (k : ℕ) (b : Board) (player : ℤ) (max_moves : ℕ) : ℚ :=
  let winner := get_winner (rollout rng k max_moves b player)
  if winner = player then 0
  else if winner = -player then 1
  else 1 / 2

/-- C3: for every random oracle, the rollout value returned by
`MCTSNode.simulate` with the ply cap 200 used by the search is exactly
0.0 when the node's own player won the final position of the playout,
1.0 when the opponent won it, and 0.5 otherwise (game not decided:
draw, ply cap reached, or early stop without legal moves). -/
theorem simulate_result_convention (rng : ℕ → ℕ) (k : ℕ) (b : Board) (player : ℤ)
    (hpl : player = 1 ∨ player = -1) :
    (simulate rng k b player 200 = 0 ↔
      get_winner (rollout rng k 200 b player) = player) ∧
    (simulate rng k b player 200 = 1 ↔
      get_winner (rollout rng k 200 b player) = -player) ∧
    (simulate rng k b player 200 = 1 / 2 ↔
      (get_winner (rollout rng k 200 b player) ≠ player ∧
       get_winner (rollout rng k 200 b player) ≠ -player)) := by
  have hne : player ≠ -player := by rcases hpl with rfl | rfl <;> decide
  unfold simulate
  set w := get_winner (rollout rng k 200 b player) with hw
  by_cases h1 : w = player
  · rw [if_pos h1]
    refine ⟨⟨fun _ => h1, fun _ => rfl⟩, ?_, ?_⟩
    · constructor
      · intro h; exact absurd h (by norm_num)
      · intro h; rw [h1] at h; exact absurd h.symm (fun he => hne he.symm)
    · constructor
      · intro h; exact absurd h (by norm_num)
      · intro h; exact absurd h1 h.1
  · rw [if_neg h1]
    by_cases h2 : w = -player
    · rw [if_pos h2]
      refine ⟨?_, ⟨fun _ => h2, fun _ => rfl⟩, ?_⟩
      · constructor
        · intro h; exact absurd h (by norm_num)
        · intro h; exact absurd h h1
      · constructor
        · intro h; exact absurd h (by norm_num)
        · intro h; exact absurd h2 h.2
    · rw [if_neg h2]
      refine ⟨?_, ?_, ⟨fun _ => ⟨h1, h2⟩, fun _ => rfl⟩⟩
      · constructor
        · intro h; exact absurd h (by norm_num)
        · intro h; exact absurd h h1
      · constructor
        · intro h; exact absurd h (by norm_num)
        · intro h; exact absurd h h2

theorem simulate_result_convention_witness :
    ((-1 : ℤ) = 1 ∨ (-1 : ℤ) = -1) ∧
    ((simulate (fun _ => 0) 0 bA (-1) 200 = 0 ↔
        get_winner (rollout (fun _ => 0) 0 200 bA (-1)) = -1) ∧
      (simulate (fun _ => 0) 0 bA (-1) 200 = 1 ↔
        get_winner (rollout (fun _ => 0) 0 200 bA (-1)) = -(-1)) ∧
      (simulate (fun _ => 0) 0 bA (-1) 200 = 1 / 2 ↔
        (get_winner (rollout (fun _ => 0) 0 200 bA (-1)) ≠ -1 ∧
         get_winner (rollout (fun _ => 0) 0 200 bA (-1)) ≠ -(-1)))) :=
  ⟨by decide, simulate_result_convention (fun _ => 0) 0 bA (-1) (by decide)⟩

/-! ## C9: first searcher invocation of `AIBattleSystem.single_battle` -/

lemma mem_all_cells (c : Fin 5 × Fin 5) : c ∈ all_cells := by
  simp [all_cells, List.mem_flatMap, List.mem_finRange]

lemma find_piece_position_of_present {b : Board} {p : ℤ} (h : present b p) :
    ∃ pos, find_piece_position b p = some pos := by
  rcases h with ⟨i, j, hij⟩
  cases hfind : find_piece_position b p with
  | some pos => exact ⟨pos, rfl⟩
  | none =>
    rw [find_piece_position, List.find?_eq_none] at hfind
    exact absurd (by simpa using hij) (by simpa using hfind (i, j) (mem_all_cells (i, j)))

lemma game_over_of_no_blue {b : Board} (h : blue_count b = 0) : is_game_over b = true := by
  rw [is_game_over]
  by_cases h1 : 1 ≤ b 4 4 ∧ b 4 4 ≤ 6
  · rw [if_pos h1]
  · rw [if_neg h1]
    by_cases h2 : 7 ≤ b 0 0 ∧ b 0 0 ≤ 12
    · rw [if_pos h2]
    · rw [if_neg h2, if_pos (Or.inr h)]

lemma blue_alive_of_not_over {b : Board} (h : is_game_over b = false) :
    ∃ p, 7 ≤ p ∧ p ≤ 12 ∧ present b p := by
  have hbc : blue_count b ≠ 0 := by
    intro h0
    rw [game_over_of_no_blue h0] at h
    exact absurd h (by simp)
  have hpos : 0 < (all_cells.countP (fun c => decide (7 ≤ b c.1 c.2 ∧ b c.1 c.2 ≤ 12))) := by
    have := hbc
    rw [blue_count] at this
    omega
  rcases List.countP_pos_iff.mp hpos with ⟨c, _, hc⟩
  have hc2 : 7 ≤ b c.1 c.2 ∧ b c.1 c.2 ≤ 12 := by simpa using hc
  exact ⟨b c.1 c.2, hc2.1, hc2.2, ⟨c.1, c.2, rfl⟩⟩

lemma no_blue_corner_of_not_over {b : Board} (h : is_game_over b = false) :
    ¬(7 ≤ b 0 0 ∧ b 0 0 ≤ 12) := by
  intro h2
  rw [is_game_over] at h
  by_cases h1 : 1 ≤ b 4 4 ∧ b 4 4 ≤ 6
  · rw [if_pos h1] at h; exact absurd h (by simp)
  · rw [if_neg h1, if_pos h2] at h; exact absurd h (by simp)

lemma find_movable_nonempty_blue {b : Board} (die : ℕ)
    (h : is_game_over b = false) : find_movable_pieces b die 1 ≠ [] := by
  rcases blue_alive_of_not_over h with ⟨p, hp7, hp12, hpres⟩
  have hpalive : p ∈ (rangeZ 7 12).filter (fun x => piece_exists_on_board b x) :=
    List.mem_filter.mpr ⟨mem_rangeZ.mpr ⟨hp7, hp12⟩, piece_exists_iff.mpr hpres⟩
  show find_movable_pieces b die 1 ≠ []
  rw [show find_movable_pieces b die 1 =
      (if ((die : ℤ) + 6) ∈ (rangeZ 7 12).filter (fun x => piece_exists_on_board b x)
        then [((die : ℤ) + 6)]
        else ((rangeZ (((die : ℤ) + 6) + 1) 12).find?
            (fun x => decide (x ∈ (rangeZ 7 12).filter (fun x => piece_exists_on_board b x)))).toList ++
          (((rangeZ 7 (((die : ℤ) + 6) - 1)).reverse).find?
            (fun x => decide (x ∈ (rangeZ 7 12).filter (fun x => piece_exists_on_board b x)))).toList)
    from by simp [find_movable_pieces]]
  by_cases ht : ((die : ℤ) + 6) ∈ (rangeZ 7 12).filter (fun x => piece_exists_on_board b x)
  · rw [if_pos ht]; simp
  · rw [if_neg ht]
    have hpne : p ≠ (die : ℤ) + 6 := by
      intro he; exact ht (he ▸ hpalive)
    rcases lt_or_gt_of_ne hpne with hlt | hgt
    · cases hlow : ((rangeZ 7 (((die : ℤ) + 6) - 1)).reverse).find?
          (fun x => decide (x ∈ (rangeZ 7 12).filter (fun y => piece_exists_on_board b y))) with
      | some l => simp [hlow]
      | none =>
        rw [List.find?_eq_none] at hlow
        have hpm : p ∈ (rangeZ 7 (((die : ℤ) + 6) - 1)).reverse :=
          List.mem_reverse.mpr (mem_rangeZ.mpr ⟨hp7, by omega⟩)
        exact absurd (by simpa using hpalive) (by simpa using hlow p hpm)
    · cases hup : (rangeZ (((die : ℤ) + 6) + 1) 12).find?
          (fun x => decide (x ∈ (rangeZ 7 12).filter (fun y => piece_exists_on_board b y))) with
      | some u => simp [hup]
      | none =>
        rw [List.find?_eq_none] at hup
        have hpm : p ∈ rangeZ (((die : ℤ) + 6) + 1) 12 :=
          mem_rangeZ.mpr ⟨by omega, hp12⟩
        exact absurd (by simpa using hpalive) (by simpa using hup p hpm)

lemma legal_moves_nonempty_blue {b : Board} {die : ℕ}
    (hover : is_game_over b = false) (hd1 : 1 ≤ die) (hd2 : die ≤ 6) :
    get_legal_moves b die 1 ≠ [] := by
  have hmv := find_movable_nonempty_blue die hover
  obtain ⟨q, hq⟩ : ∃ q, q ∈ find_movable_pieces b die 1 := by
    cases hml : find_movable_pieces b die 1 with
    | nil => exact absurd hml hmv
    | cons a l => exact ⟨a, hml ▸ List.mem_cons_self a l⟩
  have hsound := find_movable_pieces_sound hd1 hd2 hq
  have hqrange : 7 ≤ q ∧ q ≤ 12 := by
    have := hsound.1
    rw [in_player_range, if_pos rfl] at this
    exact this
  have hqpres : present b q := by
    rcases hsound.2 with ⟨hpres, rfl⟩ | ⟨_, _, hpres, _⟩
    · exact hpres
    · exact hpres
  rcases find_piece_position_of_present hqpres with ⟨pos, hpos⟩
  have hcell : b pos.1 pos.2 = q := find_piece_position_holds hpos
  have hpos_ne : ¬((pos.1 : ℕ) = 0 ∧ (pos.2 : ℕ) = 0) := by
    rintro ⟨h1, h2⟩
    apply no_blue_corner_of_not_over hover
    have hp1 : pos.1 = 0 := Fin.ext h1
    have hp2 : pos.2 = 0 := Fin.ext h2
    rw [hp1, hp2] at hcell
    rw [hcell]
    exact hqrange
  intro hnil
  have hmem : ∀ m : Move, m ∈ get_legal_moves b die 1 → False := by
    intro m hm; rw [hnil] at hm; exact absurd hm (List.not_mem_nil m)
  by_cases h1 : 1 ≤ (pos.1 : ℕ)
  · refine hmem ((pos.1 : ℤ), (pos.2 : ℤ), (pos.1 : ℤ) + (-1), (pos.2 : ℤ) + 0) ?_
    refine List.mem_flatMap.mpr ⟨q, hq, ?_⟩
    rw [hpos]
    refine List.mem_filterMap.mpr ⟨((-1 : ℤ), (0 : ℤ)), ?_, ?_⟩
    · rw [get_movement_directions, if_pos rfl]; simp
    · rw [if_pos]
      have hb1 : (pos.1 : ℕ) < 5 := pos.1.isLt
      have hb2 : (pos.2 : ℕ) < 5 := pos.2.isLt
      simp only [is_position_valid, board_size]
      refine decide_eq_true ?_
      push_cast
      omega
  · have h2 : 1 ≤ (pos.2 : ℕ) := by omega
    refine hmem ((pos.1 : ℤ), (pos.2 : ℤ), (pos.1 : ℤ) + 0, (pos.2 : ℤ) + (-1)) ?_
    refine List.mem_flatMap.mpr ⟨q, hq, ?_⟩
    rw [hpos]
    refine List.mem_filterMap.mpr ⟨((0 : ℤ), (-1 : ℤ)), ?_, ?_⟩
    · rw [get_movement_directions, if_pos rfl]; simp
    · rw [if_pos]
      have hb1 : (pos.1 : ℕ) < 5 := pos.1.isLt
      have hb2 : (pos.2 : ℕ) < 5 := pos.2.isLt
      simp only [is_position_valid, board_size]
      refine decide_eq_true ?_
      push_cast
      omega

/-- The prefix of the `single_battle` game loop up to the first searcher
invocation: while the board is not terminal, roll a die; if the side to
move has no legal moves, pass the turn (the Python loop does not advance
`move_count` on a pass, so `fuel` is added here only to keep the model
total); otherwise report the side to move, the die, and the legal moves
that the searcher is invoked on. -/
def first_query (rng : ℕ → ℕ) : ℕ → ℕ → Board → ℤ → Option (ℤ × ℕ × List Move)
  | _, 0, _, _ => none
  | k, fuel + 1, b, player =>
    if is_game_over b then none
    else
      let die := rng k % 6 + 1
      let legal_moves := get_legal_moves b die player
      if legal_moves = [] then first_query rng (k + 1) fuel b (-player)
      else some (player, die, legal_moves)

/-- `AIBattleSystem.single_battle` sets `current_player = 1` before the
loop, so the first query starts with player value 1. -/
def single_battle_first_query (rng : ℕ → ℕ) (b : Board) (fuel : ℕ) :
    Option (ℤ × ℕ × List Move) :=
  first_query rng 0 fuel b 1

/-- Board with red token 1 on (4,0) and blue token 7 on (3,1). -/
def bC9 : Board := fun i j =>
  if i = 4 ∧ j = 0 then 1 else if i = 3 ∧ j = 1 then 7 else 0

/-- C9 counterexample: on this non-terminal board the first searcher
invocation of `single_battle` is made for player value 1, and the legal
moves handed to that searcher all originate from the cell holding token
7, which is not in the claimed red range 1..6. -/
theorem first_player_counterexample :
    single_battle_first_query (fun _ => 0) bC9 1 =
      some (1, 1, [((3 : ℤ), (1 : ℤ), (2 : ℤ), (1 : ℤ)),
        ((3 : ℤ), (1 : ℤ), (3 : ℤ), (0 : ℤ)),
        ((3 : ℤ), (1 : ℤ), (2 : ℤ), (0 : ℤ))]) ∧
    ([((3 : ℤ), (1 : ℤ), (2 : ℤ), (1 : ℤ)),
        ((3 : ℤ), (1 : ℤ), (3 : ℤ), (0 : ℤ)),
        ((3 : ℤ), (1 : ℤ), (2 : ℤ), (0 : ℤ))].all
      (fun m => cell_get bC9 m.1 m.2.1 == 7)) = true ∧
    ¬(1 ≤ (7 : ℤ) ∧ (7 : ℤ) ≤ 6) := by decide

/-- C9 (amended): `single_battle` sets the side to move to the player
with value 1 before the game loop; on every non-terminal initial board
the first searcher invocation of the game is made for that player, whose
tokens are 7..12 (labelled blue in this code), i.e. the first ply's
legal moves are enumerated over tokens in the range 7..12. -/
theorem first_query_player_one (rng : ℕ → ℕ) (b : Board) (fuel : ℕ)
    (hfuel : 0 < fuel) (hover : is_game_over b = false) :
    ∃ die ms, single_battle_first_query rng b fuel = some (1, die, ms) ∧ ms ≠ [] ∧
      ∀ m ∈ ms, 7 ≤ cell_get b m.1 m.2.1 ∧ cell_get b m.1 m.2.1 ≤ 12 := by
  obtain ⟨f, rfl⟩ : ∃ f, fuel = f + 1 := ⟨fuel - 1, by omega⟩
  have hd1 : 1 ≤ rng 0 % 6 + 1 := by omega
  have hd2 : rng 0 % 6 + 1 ≤ 6 := by
    have := Nat.mod_lt (rng 0) (show 0 < 6 by decide)
    omega
  have hne := legal_moves_nonempty_blue hover hd1 hd2
  refine ⟨rng 0 % 6 + 1, get_legal_moves b (rng 0 % 6 + 1) 1, ?_, hne, ?_⟩
  · show first_query rng 0 (f + 1) b 1 = _
    rw [first_query]
    rw [if_neg (by rw [hover]; exact Bool.false_ne_true)]
    simp only []
    rw [if_neg hne]
  · intro m hm
    have hs := legal_moves_sound_aux b (rng 0 % 6 + 1) 1 m hd1 hd2 (Or.inl rfl) hm
    rcases hs.1 with ⟨piece, hcell, hrange, _⟩
    rw [hcell]
    rw [in_player_range, if_pos rfl] at hrange
    exact hrange

theorem first_query_player_one_witness :
    (0 < 1 ∧ is_game_over bC9 = false) ∧
    (∃ die ms, single_battle_first_query (fun _ => 0) bC9 1 = some (1, die, ms) ∧
      ms ≠ [] ∧ ∀ m ∈ ms, 7 ≤ cell_get bC9 m.1 m.2.1 ∧ cell_get bC9 m.1 m.2.1 ≤ 12) :=
  ⟨⟨by decide, by decide⟩, first_query_player_one (fun _ => 0) bC9 1 (by decide) (by decide)⟩

/-! ## PMCTS tree (`src/core/pmcts.py`)

Python node objects become entries of two arenas (`dnodes` for
`MCTSNode`, `cnodes` for `ProbabilityNode`) indexed by naturals; object
references become indices, so the DAG sharing of decision nodes across
chance parents is index sharing.  Floating-point UCB comparisons and the
library random draws are resolved by oracle parameters; every theorem
below quantifies over all oracles. -/

/-- `ProbabilityNode.__init__`. -/
structure ProbabilityNode where
  dice_value : ℕ
  probability : ℚ
  children : List ℕ
  parent_mcts_node : Option ℕ

instance : Inhabited ProbabilityNode :=
  ⟨{ dice_value := 0, probability := 0, children := [], parent_mcts_node := none }⟩

/-- `MCTSNode.__init__` (the Python attribute `wins` accumulates the
back-propagated values). -/
structure MCTSNode where
  board : Board
  player : ℤ
  move : Option Move
  is_root : Bool
  visits : ℕ
  wins : ℚ
  probability_children : List (ℕ × ℕ)
  parent_prob_nodes : List ℕ

instance : Inhabited MCTSNode :=
  ⟨{ board := fun _ _ => 0, player := 0, move := none, is_root := false,
     visits := 0, wins := 0, probability_children := [], parent_prob_nodes := [] }⟩

/-- The two arenas holding all nodes created during one search. -/
structure SearchTree where
  dnodes : List MCTSNode
  cnodes : List ProbabilityNode

/-- Decision node at an index (out-of-range reads yield the junk default;
all reachable accesses are in-range). -/
def dget (t : SearchTree) (i : ℕ) : MCTSNode := (t.dnodes[i]?).getD default

/-- Chance node at an index. -/
def cget (t : SearchTree) (c : ℕ) : ProbabilityNode := (t.cnodes[c]?).getD default

/-- `MCTSNode.is_fully_expanded`: all six dice have a probability child. -/
def is_fully_expanded (nd : MCTSNode) : Bool := nd.probability_children.length == 6

/-- `MCTSNode.get_win_rate`. -/
def get_win_rate (visits : ℕ) (wins : ℚ) : ℚ :=
  if visits = 0 then 1 / 2 else wins / visits

/-- The six die values, in the iteration order `range(1, 7)` of
`expand_all_probability_nodes`. -/
def dice_list : List ℕ := [1, 2, 3, 4, 5, 6]

/-- Probability assigned to a die's chance node at expansion: at the root
with a known die, 1.0 for that die and 0.0 for the others, else 1/6. -/
def expand_prob (is_root : Bool) (current_die : Option ℕ) (d : ℕ) : ℚ :=
  match current_die with
  | some cd => if is_root then (if d = cd then 1 else 0) else 1 / 6
  | none => 1 / 6

/-- The union of legal moves over the six dice (`all_possible_moves` in
the Python code is a set; its iteration order is interpreter-specific
and no claim depends on it, so the model fixes the deduplicated order of
`List.dedup`). -/
def union_moves (b : Board) (player : ℤ) : List Move :=
  (dice_list.flatMap (fun d => get_legal_moves b d player)).dedup

/-- The decision node created for one move of an expansion: post-move
board, flipped player, zero statistics; its parent chance nodes are the
chance nodes (fresh indices `c0 + (d-1)`) of every die admitting the
move, in die order. -/
def new_child (b : Board) (player : ℤ) (c0 : ℕ) (m : Move) : MCTSNode :=
  { board := make_move b m, player := -player, move := some m, is_root := false,
    visits := 0, wins := 0, probability_children := [],
    parent_prob_nodes :=
      (dice_list.filter (fun d => decide (m ∈ get_legal_moves b d player))).map
        (fun d => c0 + (d - 1)) }

/-- The chance node created for die `d` at an expansion: its children are
the decision nodes (indices `m0 + position in the move union`) of the
moves legal under `d`, in legal-move order. -/
def new_cnode (b : Board) (player : ℤ) (i m0 : ℕ) (um : List Move) (p : ℚ) (d : ℕ) :
    ProbabilityNode :=
  { dice_value := d, probability := p,
    children := (get_legal_moves b d player).filterMap
      (fun m => (um.findIdx? (fun x => x == m)).map (fun k => m0 + k)),
    parent_mcts_node := some i }

/-- `MCTSNode.expand_all_probability_nodes`: no-op returning `false` when
probability children already exist; otherwise create the six chance
nodes, one decision node per unique move of the union of legal moves
over the six dice, and link each decision node under every chance node
whose die admits its move (and conversely record those chance nodes as
its parents). -/
def expand_all_probability_nodes (t : SearchTree) (i : ℕ) (current_die : Option ℕ) :
    SearchTree × Bool :=
  let nd := dget t i
  if nd.probability_children ≠ [] then (t, false)
  else
    let c0 := t.cnodes.length
    let m0 := t.dnodes.length
    let um := union_moves nd.board nd.player
    let nd1 := { nd with
      probability_children := dice_list.map (fun d => (d, c0 + (d - 1))) }
    ({ dnodes := t.dnodes.set i nd1 ++ um.map (new_child nd.board nd.player c0),
       cnodes := t.cnodes ++ dice_list.map (fun d =>
         new_cnode nd.board nd.player i m0 um
           (expand_prob nd.is_root current_die d) d) },
     true)

/-- `MCTSNode.select_probability_child_random`: `np.random.choice` over
the normalised probability vector when its sum is positive (the draw,
modelled by the oracle `r`, lands on a child of positive probability),
else `random.choice` over all probability children. -/
def select_probability_child_random (t : SearchTree) (i : ℕ) (r : ℕ) : Option ℕ :=
  let pcs := (dget t i).probability_children
  if pcs = [] then none
  else
    let total : ℚ := (pcs.map (fun pr => (cget t pr.2).probability)).sum
    if 0 < total then
      let pos := pcs.filter (fun pr => decide (0 < (cget t pr.2).probability))
      some (pos.getD (r % pos.length) default).2
    else
      some (pcs.getD (r % pcs.length) default).2

/-- `MCTSNode.select_best_move_child_ucb`: a child that was never visited
is returned immediately (first such child in insertion order, as in the
Python loop); otherwise the code takes the argmax of the float UCB
values `get_win_rate + sqrt(2*ln(parent visits)/child visits)` — the
float comparison is abstracted here as an oracle choice among the
children, which covers the actual argmax for some oracle (see
`ucb_value` below for the exact score the code computes). -/
def select_best_move_child_ucb (t : SearchTree) (c : ℕ) (r : ℕ) : Option ℕ :=
  let ch := (cget t c).children
  if ch = [] then none
  else
    match ch.find? (fun j => (dget t j).visits == 0) with
    | some j => some j
    | none => some (ch.getD (r % ch.length) default)

/-- `PMCTS._select`: descend from the root, sampling a chance child and
then a UCB-best decision child, until a node without probability
children, a terminal node, a chance node without children, or no UCB
choice.  The Python loop terminates because children always have larger
arena indices than their ancestors; `fuel` makes the model total. -/
def select_loop (rng : ℕ → ℕ) : ℕ → SearchTree → ℕ → ℕ → ℕ × ℕ
  | 0, _, i, k => (i, k)
  | fuel + 1, t, i, k =>
    if (dget t i).probability_children ≠ [] ∧ is_game_over (dget t i).board = false then
      match select_probability_child_random t i (rng k) with
      | none => (i, k + 1)
      | some c =>
        if (cget t c).children = [] then (i, k + 1)
        else
          match select_best_move_child_ucb t c (rng (k + 1)) with
          | none => (i, k + 2)
          | some j => select_loop rng fuel t j (k + 2)
    else (i, k)

/-- The two mutations `self.visits += 1; self.wins += result` at the top
of `MCTSNode.backpropagate`, as a functional arena update. -/
def record_visit (t : SearchTree) (i : ℕ) (r : ℚ) : SearchTree :=
  { t with
    dnodes := t.dnodes.set i
      { dget t i with
        visits := (dget t i).visits + 1
        wins := (dget t i).wins + r } }

/-- `MCTSNode.backpropagate`: add the result to the node, then walk to
the first parent chance node's decision node with the negated result.
The walk strictly decreases the arena index (parents are created before
children), so fuel `t.dnodes.length` is always sufficient. -/
def backpropagate : ℕ → SearchTree → ℕ → ℚ → SearchTree
  | 0, t, _, _ => t
  | fuel + 1, t, i, result =>
    let t2 : SearchTree := record_visit t i result
    match (dget t i).parent_prob_nodes with
    | [] => t2
    | p :: _ =>
      match (cget t2 p).parent_mcts_node with
      | none => t2
      | some j => backpropagate fuel t2 j (-result)

/-- The expansion phase of one search iteration: `PMCTS._expand` is
reached when the selected node's board is not terminal, and expands only
a node that is not fully expanded. -/
def expand_phase (t : SearchTree) (sel : ℕ) : SearchTree :=
  if is_game_over (dget t sel).board then t
  else if is_fully_expanded (dget t sel) then t
  else (expand_all_probability_nodes t sel none).1

/-- One iteration of the `PMCTS.search` loop: select from the root
(arena index 0), expand the selected node if its board is not terminal
and it is not fully expanded, run the rollout from the selected node
(`simulate` with the default ply cap 200), and back-propagate. -/
def search_step (t : SearchTree) (sel_rng sim_rng : ℕ → ℕ) : SearchTree :=
  let sel := (select_loop sel_rng t.dnodes.length t 0 0).1
  let t1 := expand_phase t sel
  let res := simulate sim_rng 0 (dget t1 sel).board (dget t1 sel).player 200
  backpropagate t1.dnodes.length t1 sel res

/-- `PMCTS.search` progress reporting: every iteration evaluates
`(simulation + 1) % (num_simulations // 10)`, which raises
`ZeroDivisionError` when `num_simulations // 10 == 0`; the error is
modelled by `Except.error ()`. -/
def search_loop (num_simulations : ℕ) (rng : ℕ → ℕ → ℕ) :
    ℕ → ℕ → SearchTree → Except Unit SearchTree
  | 0, _, t => Except.ok t
  | n + 1, s, t =>
    let t1 := search_step t (rng (2 * s)) (rng (2 * s + 1))
    if num_simulations / 10 = 0 then Except.error ()
    else search_loop num_simulations rng n (s + 1) t1

/-- The fresh root node of a search (`MCTSNode(board, player, is_root=True)`). -/
def mk_root (b : Board) (player : ℤ) : MCTSNode :=
  { board := b, player := player, move := none, is_root := true,
    visits := 0, wins := 0, probability_children := [], parent_prob_nodes := [] }

/-- The arena after `root.expand_all_probability_nodes(game, current_die=die)`:
a single root decision node at index 0, expanded with the observed die. -/
def init_tree (b : Board) (die : ℕ) (player : ℤ) : SearchTree :=
  (expand_all_probability_nodes { dnodes := [mk_root b player], cnodes := [] } 0
    (some die)).1

/-- Python's `max(children, key=visits)`: the first child index of
maximal visits. -/
def argmax_visits (t : SearchTree) : List ℕ → Option ℕ
  | [] => none
  | j :: js => some (js.foldl (fun acc j2 =>
      if (dget t j2).visits > (dget t acc).visits then j2 else acc) j)

/-- `PMCTS._select_best_move`: look up the chance child of the observed
die, and return the move of its most-visited decision child. -/
def select_best_move (t : SearchTree) (i : ℕ) (die : ℕ) : Option Move :=
  match (dget t i).probability_children.find? (fun pr => pr.1 == die) with
  | none => none
  | some pr =>
    match argmax_visits t (cget t pr.2).children with
    | none => none
    | some j => (dget t j).move

/-- `PMCTS.search`: no legal move yields `None`; a single legal move is
returned without searching; otherwise build the root, expand it with
the observed die, run `num_simulations` iterations (which may raise in
the progress computation) and extract the most-visited move. -/
def pmcts_search (rng : ℕ → ℕ → ℕ) (b : Board) (die : ℕ) (player : ℤ)
    (num_simulations : ℕ) : Except Unit (Option Move) :=
  match get_legal_moves b die player with
  | [] => Except.ok none
  | [m] => Except.ok (some m)
  | _ =>
    match search_loop num_simulations rng num_simulations 0 (init_tree b die player) with
    | Except.error e => Except.error e
    | Except.ok tf => Except.ok (select_best_move tf 0 die)

/-! ## C7: the UCB score -/

/-- `PMCTS.__init__`: the searcher configuration stores an exploration
constant (default 1.0). -/
structure PMCTS where
  exploration_constant : ℝ

/-- The selection score computed by `MCTSNode.select_best_move_child_ucb`
for a visited child (lines 111-115 of `src/core/pmcts.py`): win rate
plus `sqrt(2*ln(parent visits)/child visits)`.  The method body never
reads `exploration_constant`, so the configuration parameter `pm` is
unused, exactly as in the source. -/
noncomputable def ucb_value (_pm : PMCTS) (parent_visits child_visits : ℕ) (child_wins : ℚ) : ℝ :=
  (get_win_rate child_visits child_wins : ℝ) +
    Real.sqrt (2 * Real.log parent_visits / child_visits)

/-- The claim-side UCB score, written from the spec: the configured
exploration constant multiplies the sqrt term. -/
noncomputable def ucb_value_scaled (c : ℝ) (parent_visits child_visits : ℕ) (child_wins : ℚ) : ℝ :=
  (get_win_rate child_visits child_wins : ℝ) +
    c * Real.sqrt (2 * Real.log parent_visits / child_visits)

/-- C7 counterexample: with configured exploration constant 2, parent
visits 2 and an unvisited-free child with 1 visit and 0 wins, the score
the code computes differs from the claimed
`mean + c * sqrt(2*ln(N)/n)`. -/
theorem exploration_constant_counterexample :
    ucb_value { exploration_constant := 2 } 2 1 0 ≠ ucb_value_scaled 2 2 1 0 := by
  unfold ucb_value ucb_value_scaled
  intro h
  have hb : Real.sqrt (2 * Real.log 2 / 1) = 2 * Real.sqrt (2 * Real.log 2 / 1) := by
    have := add_left_cancel h
    linarith [this]
  have hpos : 0 < Real.sqrt (2 * Real.log 2 / 1) := by
    apply Real.sqrt_pos.mpr
    have h2 : 0 < Real.log 2 := Real.log_pos (by norm_num)
    norm_num
    linarith
  have : (2 : ℕ) = (2 : ℝ) := by norm_num
  linarith [hb, hpos]

/-- C7 (amended): the configured exploration constant is stored but never
applied; for every configuration the selection score equals the UCB1
value with the sqrt term at fixed scale 1. -/
theorem ucb_fixed_scale (pm : PMCTS) (parent_visits child_visits : ℕ) (child_wins : ℚ) :
    ucb_value pm parent_visits child_visits child_wins =
      ucb_value_scaled 1 parent_visits child_visits child_wins := by
  unfold ucb_value ucb_value_scaled
  rw [one_mul]

/-! ## C4 and C10: the search entry -/

/-- C4: `PMCTS.search` returns `None` when there is no legal move for
(board, die, player), and returns the unique legal move when exactly one
exists; in both cases the result is the same for every random oracle and
every simulation budget, because the code returns before building the
tree or running any simulation. -/
theorem search_trivial_cases (rng : ℕ → ℕ → ℕ) (b : Board) (die : ℕ) (player : ℤ)
    (n : ℕ) :
    (get_legal_moves b die player = [] →
      pmcts_search rng b die player n = Except.ok none) ∧
    (∀ m : Move, get_legal_moves b die player = [m] →
      pmcts_search rng b die player n = Except.ok (some m)) := by
  constructor
  · intro h
    unfold pmcts_search
    rw [h]
  · intro m h
    unfold pmcts_search
    rw [h]

def rngW : ℕ → ℕ → ℕ := fun _ _ => 0

theorem search_trivial_cases_witness :
    (get_legal_moves bBlue 1 (-1) = [] ∧
      pmcts_search rngW bBlue 1 (-1) 7 = Except.ok none) ∧
    (get_legal_moves bA 1 (-1) = [((4 : ℤ), (3 : ℤ), (4 : ℤ), (4 : ℤ))] ∧
      pmcts_search rngW bA 1 (-1) 7 =
        Except.ok (some ((4 : ℤ), (3 : ℤ), (4 : ℤ), (4 : ℤ)))) :=
  ⟨⟨by decide, (search_trivial_cases rngW bBlue 1 (-1) 7).1 (by decide)⟩,
   ⟨by decide, (search_trivial_cases rngW bA 1 (-1) 7).2
      ((4 : ℤ), (3 : ℤ), (4 : ℤ), (4 : ℤ)) (by decide)⟩⟩

/-- C10: for any budget between 1 and 9 and at least two legal moves,
the first iteration's progress computation
`(simulation + 1) % (num_simulations // 10)` divides by zero, so the
search raises instead of returning a move. -/
theorem search_small_budget_raises (rng : ℕ → ℕ → ℕ) (b : Board) (die : ℕ)
    (player : ℤ) (n : ℕ) (h1 : 1 ≤ n) (h9 : n ≤ 9)
    (h2 : 2 ≤ (get_legal_moves b die player).length) :
    pmcts_search rng b die player n = Except.error () := by
  cases hl : get_legal_moves b die player with
  | nil => rw [hl] at h2; simp at h2
  | cons a l =>
    cases l with
    | nil => rw [hl] at h2; simp at h2
    | cons a2 l2 =>
      unfold pmcts_search
      rw [hl]
      show (match search_loop n rng n 0 (init_tree b die player) with
        | Except.error e => Except.error e
        | Except.ok tf => Except.ok (select_best_move tf 0 die)) = Except.error ()
      obtain ⟨n0, rfl⟩ : ∃ n0, n = n0 + 1 := ⟨n - 1, by omega⟩
      have hdiv : (n0 + 1) / 10 = 0 := Nat.div_eq_of_lt (by omega)
      rw [search_loop]
      rw [if_pos hdiv]

theorem search_small_budget_raises_witness :
    (1 ≤ 5 ∧ 5 ≤ 9 ∧ 2 ≤ (get_legal_moves bC8 1 (-1)).length) ∧
    pmcts_search rngW bC8 1 (-1) 5 = Except.error () :=
  ⟨⟨by decide, by decide, by decide⟩,
    search_small_budget_raises rngW bC8 1 (-1) 5 (by decide) (by decide) (by decide)⟩

/-! ## What expansion does to the arenas -/

lemma expand_spec {t : SearchTree} {i : ℕ} {cd : Option ℕ}
    (hempty : (dget t i).probability_children = []) :
    expand_all_probability_nodes t i cd =
      ({ dnodes := t.dnodes.set i
            { dget t i with probability_children :=
                dice_list.map (fun d => (d, t.cnodes.length + (d - 1))) } ++
            (union_moves (dget t i).board (dget t i).player).map
              (new_child (dget t i).board (dget t i).player t.cnodes.length),
         cnodes := t.cnodes ++ dice_list.map (fun d =>
           new_cnode (dget t i).board (dget t i).player i t.dnodes.length
             (union_moves (dget t i).board (dget t i).player)
             (expand_prob (dget t i).is_root cd d) d) },
       true) := by
  rw [expand_all_probability_nodes]
  rw [if_neg (fun h => h hempty)]

lemma expand_dnodes_length {t : SearchTree} {i : ℕ} {cd : Option ℕ}
    (hempty : (dget t i).probability_children = []) :
    (expand_all_probability_nodes t i cd).1.dnodes.length =
      t.dnodes.length + (union_moves (dget t i).board (dget t i).player).length := by
  rw [expand_spec hempty]
  simp

lemma expand_cnodes_length {t : SearchTree} {i : ℕ} {cd : Option ℕ}
    (hempty : (dget t i).probability_children = []) :
    (expand_all_probability_nodes t i cd).1.cnodes.length = t.cnodes.length + 6 := by
  rw [expand_spec hempty]
  simp [dice_list]

lemma expand_dget_self {t : SearchTree} {i : ℕ} {cd : Option ℕ}
    (hib : i < t.dnodes.length) (hempty : (dget t i).probability_children = []) :
    dget (expand_all_probability_nodes t i cd).1 i =
      { dget t i with probability_children :=
          dice_list.map (fun d => (d, t.cnodes.length + (d - 1))) } := by
  rw [expand_spec hempty]
  show ((List.set t.dnodes i _ ++ _)[i]?).getD default = _
  rw [List.getElem?_append_left (by simpa using hib)]
  rw [List.getElem?_set_self (by simpa using hib)]
  rfl

lemma expand_dget_old {t : SearchTree} {i : ℕ} {cd : Option ℕ} {j : ℕ}
    (hempty : (dget t i).probability_children = [])
    (hj : j < t.dnodes.length) (hne : j ≠ i) :
    dget (expand_all_probability_nodes t i cd).1 j = dget t j := by
  rw [expand_spec hempty]
  show ((List.set t.dnodes i _ ++ _)[j]?).getD default = _
  rw [List.getElem?_append_left (by simpa using hj)]
  rw [List.getElem?_set_ne (fun h => hne h.symm)]
  rfl

lemma expand_dget_new {t : SearchTree} {i : ℕ} {cd : Option ℕ} {k : ℕ} {m : Move}
    (hempty : (dget t i).probability_children = [])
    (hk : (union_moves (dget t i).board (dget t i).player)[k]? = some m) :
    dget (expand_all_probability_nodes t i cd).1 (t.dnodes.length + k) =
      new_child (dget t i).board (dget t i).player t.cnodes.length m := by
  rw [expand_spec hempty]
  show ((List.set t.dnodes i _ ++ _)[t.dnodes.length + k]?).getD default = _
  rw [List.getElem?_append_right (by simp)]
  rw [List.length_set]
  rw [show t.dnodes.length + k - t.dnodes.length = k from by omega]
  rw [List.getElem?_map, hk]
  rfl

lemma expand_cget_old {t : SearchTree} {i : ℕ} {cd : Option ℕ} {c : ℕ}
    (hempty : (dget t i).probability_children = [])
    (hc : c < t.cnodes.length) :
    cget (expand_all_probability_nodes t i cd).1 c = cget t c := by
  rw [expand_spec hempty]
  show ((t.cnodes ++ _)[c]?).getD default = _
  rw [List.getElem?_append_left hc]
  rfl

lemma dice_list_getElem {d : ℕ} (hd : d ∈ dice_list) :
    dice_list[d - 1]? = some d := by
  fin_cases hd <;> rfl

lemma expand_cget_new {t : SearchTree} {i : ℕ} {cd : Option ℕ} {d : ℕ}
    (hempty : (dget t i).probability_children = [])
    (hd : d ∈ dice_list) :
    cget (expand_all_probability_nodes t i cd).1 (t.cnodes.length + (d - 1)) =
      new_cnode (dget t i).board (dget t i).player i t.dnodes.length
        (union_moves (dget t i).board (dget t i).player)
        (expand_prob (dget t i).is_root cd d) d := by
  rw [expand_spec hempty]
  show ((t.cnodes ++ _)[t.cnodes.length + (d - 1)]?).getD default = _
  rw [List.getElem?_append_right (by omega)]
  rw [show t.cnodes.length + (d - 1) - t.cnodes.length = d - 1 from by omega]
  rw [List.getElem?_map, dice_list_getElem hd]
  rfl

lemma mem_union_moves {b : Board} {pl : ℤ} {m : Move} :
    m ∈ union_moves b pl ↔ ∃ d ∈ dice_list, m ∈ get_legal_moves b d pl := by
  simp [union_moves, List.mem_dedup, List.mem_flatMap]

lemma union_moves_nodup (b : Board) (pl : ℤ) : (union_moves b pl).Nodup :=
  List.nodup_dedup _

lemma findIdx?_of_mem {um : List Move} {m : Move} (h : m ∈ um) :
    ∃ k, um.findIdx? (fun x => x == m) = some k ∧ um[k]? = some m := by
  have hs : (um.findIdx? (fun x => x == m)).isSome = true := by
    rw [List.findIdx?_isSome, List.any_eq_true]
    exact ⟨m, h, by simp⟩
  obtain ⟨k, hk⟩ := Option.isSome_iff_exists.mp hs
  refine ⟨k, hk, ?_⟩
  obtain ⟨hlt, hpk, _⟩ := List.findIdx?_eq_some_iff_getElem.mp hk
  have : um[k] = m := by simpa using hpk
  rw [List.getElem?_eq_getElem hlt, this]

/-- C6: after `expand_all_probability_nodes` runs on an unexpanded node,
the node has six chance children (it is fully expanded); for each die
`d`, the fresh chance node for `d` carries `d` and points back to the
expanded node, and every move legal under `d` has a fresh child decision
node with zero visits and zero accumulated value that is linked under
that chance node and records it among its parent chance nodes; a fresh
child is determined uniquely by its move, so a move legal under several
dice has exactly one shared child decision node. -/
theorem expansion_dag_invariant (t : SearchTree) (i : ℕ) (cd : Option ℕ)
    (hib : i < t.dnodes.length) (hempty : (dget t i).probability_children = []) :
    (expand_all_probability_nodes t i cd).2 = true ∧
    is_fully_expanded (dget (expand_all_probability_nodes t i cd).1 i) = true ∧
    (∀ d ∈ dice_list,
      (d, t.cnodes.length + (d - 1)) ∈
        (dget (expand_all_probability_nodes t i cd).1 i).probability_children ∧
      (cget (expand_all_probability_nodes t i cd).1
        (t.cnodes.length + (d - 1))).dice_value = d ∧
      (cget (expand_all_probability_nodes t i cd).1
        (t.cnodes.length + (d - 1))).parent_mcts_node = some i ∧
      (∀ m ∈ get_legal_moves (dget t i).board d (dget t i).player,
        ∃ j, t.dnodes.length ≤ j ∧
          j < (expand_all_probability_nodes t i cd).1.dnodes.length ∧
          (dget (expand_all_probability_nodes t i cd).1 j).move = some m ∧
          (dget (expand_all_probability_nodes t i cd).1 j).visits = 0 ∧
          (dget (expand_all_probability_nodes t i cd).1 j).wins = 0 ∧
          j ∈ (cget (expand_all_probability_nodes t i cd).1
            (t.cnodes.length + (d - 1))).children ∧
          (t.cnodes.length + (d - 1)) ∈
            (dget (expand_all_probability_nodes t i cd).1 j).parent_prob_nodes)) ∧
    (∀ j j2, t.dnodes.length ≤ j →
      j < (expand_all_probability_nodes t i cd).1.dnodes.length →
      t.dnodes.length ≤ j2 →
      j2 < (expand_all_probability_nodes t i cd).1.dnodes.length →
      (dget (expand_all_probability_nodes t i cd).1 j).move =
        (dget (expand_all_probability_nodes t i cd).1 j2).move → j = j2) := by
  refine ⟨by rw [expand_spec hempty], ?_, ?_, ?_⟩
  · rw [expand_dget_self hib hempty]
    simp [is_fully_expanded, dice_list]
  · intro d hd
    refine ⟨?_, ?_, ?_, ?_⟩
    · rw [expand_dget_self hib hempty]
      exact List.mem_map.mpr ⟨d, hd, rfl⟩
    · rw [expand_cget_new hempty hd]; rfl
    · rw [expand_cget_new hempty hd]; rfl
    · intro m hm
      have hmu : m ∈ union_moves (dget t i).board (dget t i).player :=
        mem_union_moves.mpr ⟨d, hd, hm⟩
      obtain ⟨k, hfind, hk⟩ := findIdx?_of_mem hmu
      have hklt : k < (union_moves (dget t i).board (dget t i).player).length := by
        rcases List.getElem?_eq_some.mp hk with ⟨hlt, _⟩
        exact hlt
      refine ⟨t.dnodes.length + k, by omega, ?_, ?_, ?_, ?_, ?_, ?_⟩
      · rw [expand_dnodes_length hempty]; omega
      · rw [expand_dget_new hempty hk]; rfl
      · rw [expand_dget_new hempty hk]; rfl
      · rw [expand_dget_new hempty hk]; rfl
      · rw [expand_cget_new hempty hd]
        show t.dnodes.length + k ∈ (get_legal_moves (dget t i).board d (dget t i).player).filterMap _
        refine List.mem_filterMap.mpr ⟨m, hm, ?_⟩
        rw [hfind]
        rfl
      · rw [expand_dget_new hempty hk]
        show t.cnodes.length + (d - 1) ∈ (dice_list.filter _).map _
        refine List.mem_map.mpr ⟨d, List.mem_filter.mpr ⟨hd, ?_⟩, rfl⟩
        exact decide_eq_true hm
  · intro j j2 hj1 hj2 hj21 hj22 hmv
    rw [expand_dnodes_length hempty] at hj2 hj22
    obtain ⟨k, rfl⟩ : ∃ k, j = t.dnodes.length + k := ⟨j - t.dnodes.length, by omega⟩
    obtain ⟨k2, rfl⟩ : ∃ k2, j2 = t.dnodes.length + k2 := ⟨j2 - t.dnodes.length, by omega⟩
    have hk : k < (union_moves (dget t i).board (dget t i).player).length := by omega
    have hk2 : k2 < (union_moves (dget t i).board (dget t i).player).length := by omega
    have he1 : (union_moves (dget t i).board (dget t i).player)[k]? =
        some ((union_moves (dget t i).board (dget t i).player)[k]) :=
      List.getElem?_eq_getElem hk
    have he2 : (union_moves (dget t i).board (dget t i).player)[k2]? =
        some ((union_moves (dget t i).board (dget t i).player)[k2]) :=
      List.getElem?_eq_getElem hk2
    rw [expand_dget_new hempty he1, expand_dget_new hempty he2] at hmv
    have hmm : (union_moves (dget t i).board (dget t i).player)[k] =
        (union_moves (dget t i).board (dget t i).player)[k2] := by
      have : some (union_moves (dget t i).board (dget t i).player)[k] =
          some (union_moves (dget t i).board (dget t i).player)[k2] := hmv
      exact Option.some_inj.mp this
    have : k = k2 := by
      refine List.getElem?_inj hk (union_moves_nodup _ _) ?_
      rw [he1, he2, hmm]
    omega

/-- A fresh one-node arena holding only an unexpanded root on `bA`. -/
def tW : SearchTree := { dnodes := [mk_root bA (-1)], cnodes := [] }

theorem expansion_dag_invariant_witness :
    (0 < tW.dnodes.length ∧ (dget tW 0).probability_children = []) ∧
    ((expand_all_probability_nodes tW 0 none).2 = true ∧
      is_fully_expanded (dget (expand_all_probability_nodes tW 0 none).1 0) = true ∧
      (∀ d ∈ dice_list,
        (d, tW.cnodes.length + (d - 1)) ∈
          (dget (expand_all_probability_nodes tW 0 none).1 0).probability_children ∧
        (cget (expand_all_probability_nodes tW 0 none).1
          (tW.cnodes.length + (d - 1))).dice_value = d ∧
        (cget (expand_all_probability_nodes tW 0 none).1
          (tW.cnodes.length + (d - 1))).parent_mcts_node = some 0 ∧
        (∀ m ∈ get_legal_moves (dget tW 0).board d (dget tW 0).player,
          ∃ j, tW.dnodes.length ≤ j ∧
            j < (expand_all_probability_nodes tW 0 none).1.dnodes.length ∧
            (dget (expand_all_probability_nodes tW 0 none).1 j).move = some m ∧
            (dget (expand_all_probability_nodes tW 0 none).1 j).visits = 0 ∧
            (dget (expand_all_probability_nodes tW 0 none).1 j).wins = 0 ∧
            j ∈ (cget (expand_all_probability_nodes tW 0 none).1
              (tW.cnodes.length + (d - 1))).children ∧
            (tW.cnodes.length + (d - 1)) ∈
              (dget (expand_all_probability_nodes tW 0 none).1 j).parent_prob_nodes)) ∧
      (∀ j j2, tW.dnodes.length ≤ j →
        j < (expand_all_probability_nodes tW 0 none).1.dnodes.length →
        tW.dnodes.length ≤ j2 →
        j2 < (expand_all_probability_nodes tW 0 none).1.dnodes.length →
        (dget (expand_all_probability_nodes tW 0 none).1 j).move =
          (dget (expand_all_probability_nodes tW 0 none).1 j2).move → j = j2)) :=
  ⟨⟨by decide, by decide⟩, expansion_dag_invariant tW 0 none (by decide) (by decide)⟩

/-! ## C5: visit accounting of back-propagation -/

/-- Structural invariant of the search arenas: the root is the node at
index 0 and is the unique node without parent chance nodes; every other
decision node's first parent chance node leads back to a decision node
of strictly smaller index (its creator, allocated earlier); and
chance-node children are in-range decision indices. -/
def TreeInv (t : SearchTree) : Prop :=
  0 < t.dnodes.length ∧
  (dget t 0).parent_prob_nodes = [] ∧
  (∀ i, i < t.dnodes.length → i ≠ 0 →
    ∃ p rest j, (dget t i).parent_prob_nodes = p :: rest ∧
      (cget t p).parent_mcts_node = some j ∧ j < i) ∧
  (∀ c j, j ∈ (cget t c).children → j < t.dnodes.length)

lemma dget_default {t : SearchTree} {i : ℕ} (h : t.dnodes.length ≤ i) :
    dget t i = default := by
  show ((t.dnodes[i]?).getD default) = default
  rw [List.getElem?_eq_none h]
  rfl

lemma cget_default {t : SearchTree} {c : ℕ} (h : t.cnodes.length ≤ c) :
    cget t c = default := by
  show ((t.cnodes[c]?).getD default) = default
  rw [List.getElem?_eq_none h]
  rfl

lemma cget_congr {t t2 : SearchTree} (h : t.cnodes = t2.cnodes) (c : ℕ) :
    cget t c = cget t2 c := by
  show ((t.cnodes[c]?).getD default) = ((t2.cnodes[c]?).getD default)
  rw [h]

lemma dget_record_visit {t : SearchTree} {i : ℕ} {r : ℚ} (j : ℕ) :
    dget (record_visit t i r) j =
      if i = j ∧ i < t.dnodes.length then
        { dget t i with
          visits := (dget t i).visits + 1
          wins := (dget t i).wins + r }
      else dget t j := by
  show ((t.dnodes.set i _)[j]?).getD default = _
  rw [List.getElem?_set]
  by_cases h1 : i = j
  · subst h1
    by_cases h2 : i < t.dnodes.length
    · rw [if_pos h2, if_pos rfl, if_pos ⟨rfl, h2⟩]
      rfl
    · rw [if_pos rfl, if_neg h2, if_neg (fun hc => h2 hc.2)]
      show default = dget t i
      rw [dget_default (by omega)]
  · rw [if_neg h1, if_neg (fun hc => h1 hc.1)]
    rfl

lemma record_visit_length {t : SearchTree} {i : ℕ} {r : ℚ} :
    (record_visit t i r).dnodes.length = t.dnodes.length := by
  show (t.dnodes.set i _).length = _
  rw [List.length_set]

lemma record_visit_cnodes {t : SearchTree} {i : ℕ} {r : ℚ} :
    (record_visit t i r).cnodes = t.cnodes := rfl

lemma dget_record_visit_fields {t : SearchTree} {i : ℕ} {r : ℚ} (j : ℕ) :
    (dget (record_visit t i r) j).parent_prob_nodes =
        (dget t j).parent_prob_nodes ∧
      (dget (record_visit t i r) j).probability_children =
        (dget t j).probability_children := by
  rw [dget_record_visit]
  by_cases h : i = j ∧ i < t.dnodes.length
  · rw [if_pos h, ← h.1]
    exact ⟨rfl, rfl⟩
  · rw [if_neg h]
    exact ⟨rfl, rfl⟩

/-- `backpropagate` only changes `visits` and `wins` of nodes; this
records everything the structural invariant needs about its result. -/
lemma backpropagate_shape : ∀ (fuel : ℕ) (t : SearchTree) (i : ℕ) (r : ℚ),
    (backpropagate fuel t i r).dnodes.length = t.dnodes.length ∧
    (backpropagate fuel t i r).cnodes = t.cnodes ∧
    (∀ j, (dget (backpropagate fuel t i r) j).parent_prob_nodes =
        (dget t j).parent_prob_nodes ∧
      (dget (backpropagate fuel t i r) j).probability_children =
        (dget t j).probability_children) := by
  intro fuel
  induction fuel with
  | zero => intro t i r; exact ⟨rfl, rfl, fun j => ⟨rfl, rfl⟩⟩
  | succ fuel ih =>
    intro t i r
    rw [backpropagate]
    cases hpar : (dget t i).parent_prob_nodes with
    | nil =>
      simp only []
      exact ⟨record_visit_length, record_visit_cnodes, dget_record_visit_fields⟩
    | cons p rest =>
      simp only []
      cases hpp : (cget (record_visit t i r) p).parent_mcts_node with
      | none =>
        exact ⟨record_visit_length, record_visit_cnodes, dget_record_visit_fields⟩
      | some j2 =>
        rcases ih (record_visit t i r) j2 (-r) with ⟨hl, hc, hf⟩
        refine ⟨by rw [hl]; exact record_visit_length,
          by rw [hc]; exact record_visit_cnodes, ?_⟩
        intro j
        rcases hf j with ⟨h1, h2⟩
        rw [h1, h2]
        exact dget_record_visit_fields j

lemma treeinv_backpropagate {fuel : ℕ} {t : SearchTree} {i : ℕ} {r : ℚ}
    (hInv : TreeInv t) : TreeInv (backpropagate fuel t i r) := by
  rcases backpropagate_shape fuel t i r with ⟨hl, hc, hf⟩
  rcases hInv with ⟨h1, h2, h3, h4⟩
  refine ⟨by rw [hl]; exact h1, ?_, ?_, ?_⟩
  · rw [(hf 0).1]; exact h2
  · intro i2 hi2 hne
    rw [hl] at hi2
    rcases h3 i2 hi2 hne with ⟨p, rest, j, hpr, hpm, hj⟩
    exact ⟨p, rest, j, by rw [(hf i2).1]; exact hpr,
      by rw [cget_congr hc]; exact hpm, hj⟩
  · intro c j hj
    rw [cget_congr hc] at hj
    rw [hl]
    exact h4 c j hj

lemma treeinv_record_visit {t : SearchTree} {i : ℕ} {r : ℚ}
    (hInv : TreeInv t) : TreeInv (record_visit t i r) := by
  rcases hInv with ⟨h1, h2, h3, h4⟩
  refine ⟨by rw [record_visit_length]; exact h1, ?_, ?_, ?_⟩
  · rw [(dget_record_visit_fields 0).1]; exact h2
  · intro i2 hi2 hne
    rw [record_visit_length] at hi2
    rcases h3 i2 hi2 hne with ⟨p, rest, j, hpr, hpm, hj⟩
    exact ⟨p, rest, j, by rw [(dget_record_visit_fields i2).1]; exact hpr,
      by rw [cget_congr record_visit_cnodes]; exact hpm, hj⟩
  · intro c j hj
    rw [cget_congr record_visit_cnodes] at hj
    rw [record_visit_length]
    exact h4 c j hj

/-- Each call of `backpropagate` walks the strictly decreasing
first-parent chain down to the parentless root at index 0 and adds
exactly one visit to the root. -/
lemma backpropagate_root_visits :
    ∀ (i fuel : ℕ) (t : SearchTree) (r : ℚ), TreeInv t →
      i < t.dnodes.length → i < fuel →
      (dget (backpropagate fuel t i r) 0).visits = (dget t 0).visits + 1 := by
  intro i
  induction i using Nat.strong_induction_on with
  | _ i ih =>
    intro fuel t r hInv hib hif
    obtain ⟨f, rfl⟩ : ∃ f, fuel = f + 1 := ⟨fuel - 1, by omega⟩
    rw [backpropagate]
    by_cases hi0 : i = 0
    · subst hi0
      rw [hInv.2.1]
      simp only []
      rw [dget_record_visit]
      rw [if_pos ⟨rfl, hib⟩]
    · rcases hInv.2.2.1 i hib hi0 with ⟨p, rest, j, hpr, hpm, hj⟩
      rw [hpr]
      simp only []
      have hpm2 : (cget (record_visit t i r) p).parent_mcts_node = some j := by
        rw [cget_congr record_visit_cnodes]; exact hpm
      rw [hpm2]
      have hInv2 : TreeInv (record_visit t i r) := treeinv_record_visit hInv
      have hres := ih j (by omega) f (record_visit t i r) (-r) hInv2
        (by rw [record_visit_length]; omega) (by omega)
      rw [hres]
      rw [dget_record_visit]
      rw [if_neg (fun hc => hi0 hc.1)]

lemma getD_mod_mem {α : Type} [Inhabited α] {l : List α} (h : l ≠ []) (n : ℕ) :
    l.getD (n % l.length) default ∈ l := by
  have hlen : 0 < l.length := List.length_pos.mpr h
  have hlt : n % l.length < l.length := Nat.mod_lt _ hlen
  rw [List.getD_eq_getElem?_getD, List.getElem?_eq_getElem hlt]
  exact List.getElem_mem hlt

lemma ucb_child_mem {t : SearchTree} {c r j : ℕ}
    (h : select_best_move_child_ucb t c r = some j) : j ∈ (cget t c).children := by
  rw [select_best_move_child_ucb] at h
  by_cases hch : (cget t c).children = []
  · rw [if_pos hch] at h
    exact absurd h (by simp)
  · rw [if_neg hch] at h
    cases hf : ((cget t c).children).find? (fun j2 => (dget t j2).visits == 0) with
    | some j2 =>
      rw [hf] at h
      have : j2 = j := by simpa using h
      subst this
      exact List.mem_of_find?_eq_some hf
    | none =>
      rw [hf] at h
      have : (cget t c).children.getD (r % (cget t c).children.length) default = j := by
        simpa using h
      rw [← this]
      exact getD_mod_mem hch r

lemma select_loop_valid : ∀ (fuel : ℕ) (t : SearchTree) (i k : ℕ) (rng : ℕ → ℕ),
    TreeInv t → i < t.dnodes.length →
    (select_loop rng fuel t i k).1 < t.dnodes.length := by
  intro fuel
  induction fuel with
  | zero => intro t i k rng _ hib; exact hib
  | succ fuel ih =>
    intro t i k rng hInv hib
    rw [select_loop]
    by_cases hcond : (dget t i).probability_children ≠ [] ∧
        is_game_over (dget t i).board = false
    · rw [if_pos hcond]
      cases hsel : select_probability_child_random t i (rng k) with
      | none => exact hib
      | some c =>
        show ((if (cget t c).children = [] then (i, k + 1)
          else match select_best_move_child_ucb t c (rng (k + 1)) with
            | none => (i, k + 2)
            | some j => select_loop rng fuel t j (k + 2)) : ℕ × ℕ).1 < t.dnodes.length
        by_cases hch : (cget t c).children = []
        · rw [if_pos hch]; exact hib
        · rw [if_neg hch]
          cases hucb : select_best_move_child_ucb t c (rng (k + 1)) with
          | none => exact hib
          | some j =>
            exact ih t j (k + 2) rng hInv (hInv.2.2.2 c j (ucb_child_mem hucb))
    · rw [if_neg hcond]; exact hib

lemma expand_noop {t : SearchTree} {i : ℕ} {cd : Option ℕ}
    (h : (dget t i).probability_children ≠ []) :
    expand_all_probability_nodes t i cd = (t, false) := by
  rw [expand_all_probability_nodes, if_pos h]

lemma filter_dice_nonempty {b : Board} {pl : ℤ} {m : Move}
    (hm : m ∈ union_moves b pl) :
    dice_list.filter (fun d => decide (m ∈ get_legal_moves b d pl)) ≠ [] := by
  rcases mem_union_moves.mp hm with ⟨d, hd, hleg⟩
  intro hnil
  have := List.filter_eq_nil_iff.mp hnil d hd
  simp only [decide_eq_true_eq] at this
  exact this hleg

lemma treeinv_expand {t : SearchTree} {i : ℕ} {cd : Option ℕ}
    (hInv : TreeInv t) (hib : i < t.dnodes.length) :
    TreeInv (expand_all_probability_nodes t i cd).1 := by
  by_cases hempty : (dget t i).probability_children = []
  case neg =>
    rw [expand_noop hempty]
    exact hInv
  refine ⟨?_, ?_, ?_, ?_⟩
  · rw [expand_dnodes_length hempty]
    have := hInv.1
    omega
  · by_cases hi0 : i = 0
    · subst hi0
      rw [expand_dget_self hib hempty]
      exact hInv.2.1
    · rw [expand_dget_old hempty hInv.1 (fun h => hi0 h.symm)]
      exact hInv.2.1
  · intro i2 hi2 hne0
    rw [expand_dnodes_length hempty] at hi2
    by_cases hi2old : i2 < t.dnodes.length
    · have hfields : (dget (expand_all_probability_nodes t i cd).1 i2).parent_prob_nodes =
          (dget t i2).parent_prob_nodes := by
        by_cases hii : i2 = i
        · subst hii
          rw [expand_dget_self hi2old hempty]
        · rw [expand_dget_old hempty hi2old hii]
      rcases hInv.2.2.1 i2 hi2old hne0 with ⟨p, rest, j, hpr, hpm, hj⟩
      have hplt : p < t.cnodes.length := by
        by_contra hge
        rw [cget_default (by omega)] at hpm
        exact absurd hpm (by simp [default])
      refine ⟨p, rest, j, by rw [hfields]; exact hpr, ?_, hj⟩
      rw [expand_cget_old hempty hplt]
      exact hpm
    · obtain ⟨k, rfl⟩ : ∃ k, i2 = t.dnodes.length + k :=
        ⟨i2 - t.dnodes.length, by omega⟩
      have hk : k < (union_moves (dget t i).board (dget t i).player).length := by omega
      have he : (union_moves (dget t i).board (dget t i).player)[k]? =
          some ((union_moves (dget t i).board (dget t i).player)[k]) :=
        List.getElem?_eq_getElem hk
      have hmum : (union_moves (dget t i).board (dget t i).player)[k] ∈
          union_moves (dget t i).board (dget t i).player := List.getElem_mem hk
      have hfne := filter_dice_nonempty hmum
      obtain ⟨d1, ds, hfd⟩ : ∃ d1 ds, dice_list.filter
          (fun d => decide ((union_moves (dget t i).board (dget t i).player)[k] ∈
            get_legal_moves (dget t i).board d (dget t i).player)) = d1 :: ds := by
        cases hf2 : dice_list.filter (fun d =>
            decide ((union_moves (dget t i).board (dget t i).player)[k] ∈
              get_legal_moves (dget t i).board d (dget t i).player)) with
        | nil => exact absurd hf2 hfne
        | cons a l => exact ⟨a, l, rfl⟩
      have hd1 : d1 ∈ dice_list :=
        List.mem_of_mem_filter (hfd ▸ List.mem_cons_self d1 ds)
      refine ⟨t.cnodes.length + (d1 - 1),
        ds.map (fun d => t.cnodes.length + (d - 1)), i, ?_, ?_, by omega⟩
    
      · rw [expand_dget_new hempty he]
        show ((dice_list.filter _).map (fun d => t.cnodes.length + (d - 1))) = _
        rw [hfd]
        rfl
      · rw [expand_cget_new hempty hd1]
        rfl
  · intro c j hj
    rw [expand_dnodes_length hempty]
    by_cases hcold : c < t.cnodes.length
    · rw [expand_cget_old hempty hcold] at hj
      have := hInv.2.2.2 c j hj
      omega
    · by_cases hcnew : c < t.cnodes.length + 6
      · have hd : c - t.cnodes.length + 1 ∈ dice_list := by
          simp only [dice_list, List.mem_cons, List.not_mem_nil, or_false]
          omega
        have hceq : c = t.cnodes.length + (c - t.cnodes.length + 1 - 1) := by omega
        rw [hceq, expand_cget_new hempty hd] at hj
        rcases List.mem_filterMap.mp hj with ⟨m, _, hjm⟩
        rcases Option.map_eq_some'.mp hjm with ⟨k, hfi, rfl⟩
        have hklt := (List.findIdx?_eq_some_iff_findIdx_eq.mp hfi).1
        omega
      · rw [show cget (expand_all_probability_nodes t i cd).1 c = default from
          cget_default (by rw [expand_cnodes_length hempty]; omega)] at hj
        exact absurd hj (by simp [default])

lemma expand_phase_props {t : SearchTree} {sel : ℕ}
    (hInv : TreeInv t) (hsel : sel < t.dnodes.length) :
    TreeInv (expand_phase t sel) ∧
    (dget (expand_phase t sel) 0).visits = (dget t 0).visits ∧
    sel < (expand_phase t sel).dnodes.length := by
  rw [expand_phase]
  by_cases hover : is_game_over (dget t sel).board = true
  · rw [if_pos hover]
    exact ⟨hInv, rfl, hsel⟩
  · rw [if_neg hover]
    by_cases hfull : is_fully_expanded (dget t sel) = true
    · rw [if_pos hfull]
      exact ⟨hInv, rfl, hsel⟩
    · rw [if_neg hfull]
      by_cases hempty : (dget t sel).probability_children = []
      · refine ⟨treeinv_expand hInv hsel, ?_, ?_⟩
        · by_cases hs0 : sel = 0
          · subst hs0
            rw [expand_dget_self hsel hempty]
          · rw [expand_dget_old hempty hInv.1 (fun h => hs0 h.symm)]
        · rw [expand_dnodes_length hempty]
          omega
      · rw [expand_noop hempty]
        exact ⟨hInv, rfl, hsel⟩

lemma search_step_root {t : SearchTree} (r1 r2 : ℕ → ℕ) (hInv : TreeInv t) :
    TreeInv (search_step t r1 r2) ∧
    (dget (search_step t r1 r2) 0).visits = (dget t 0).visits + 1 := by
  have hselval : (select_loop r1 t.dnodes.length t 0 0).1 < t.dnodes.length :=
    select_loop_valid _ t 0 0 r1 hInv hInv.1
  rcases expand_phase_props hInv hselval with ⟨h1, h2, h3⟩
  constructor
  · show TreeInv (backpropagate _ _ _ _)
    exact treeinv_backpropagate h1
  · show (dget (backpropagate _ _ _ _) 0).visits = _
    rw [backpropagate_root_visits _ _ _ _ h1 h3 h3, h2]

/-- Root visit count observed after running the search loop, `none` when
the loop raised in the progress computation. -/
def root_visits_after (budget : ℕ) (rng : ℕ → ℕ → ℕ) (n s : ℕ) (t : SearchTree) :
    Option ℕ :=
  match search_loop budget rng n s t with
  | Except.ok t2 => some ((dget t2 0).visits)
  | Except.error _ => none

lemma search_loop_visits (budget : ℕ) (rng : ℕ → ℕ → ℕ) (hdiv : budget / 10 ≠ 0) :
    ∀ (n s : ℕ) (t : SearchTree), TreeInv t →
      root_visits_after budget rng n s t = some ((dget t 0).visits + n) := by
  intro n
  induction n with
  | zero => intro s t _; rfl
  | succ n ih =>
    intro s t hInv
    rcases search_step_root (rng (2 * s)) (rng (2 * s + 1)) hInv with ⟨hI1, hV1⟩
    have hrec := ih (s + 1) (search_step t (rng (2 * s)) (rng (2 * s + 1))) hI1
    rw [root_visits_after] at hrec ⊢
    rw [search_loop, if_neg hdiv]
    rw [hrec, hV1]
    exact congrArg some (by omega)

lemma mk_root_tree_inv (b : Board) (pl : ℤ) :
    TreeInv { dnodes := [mk_root b pl], cnodes := [] } := by
  refine ⟨by simp, rfl, ?_, ?_⟩
  · intro i hi hne
    simp only [List.length_singleton] at hi
    omega
  · intro c j hj
    rw [cget_default (by simp)] at hj
    exact absurd hj (by simp [default])

lemma init_tree_inv (b : Board) (die : ℕ) (pl : ℤ) : TreeInv (init_tree b die pl) :=
  treeinv_expand (mk_root_tree_inv b pl) (by simp)

lemma init_tree_root_visits (b : Board) (die : ℕ) (pl : ℤ) :
    (dget (init_tree b die pl) 0).visits = 0 := by
  rw [init_tree]
  have hempty : (dget { dnodes := [mk_root b pl], cnodes := [] } 0).probability_children
      = [] := rfl
  rw [expand_dget_self (by simp) hempty]
  rfl

/-- C5: for every random oracle and every budget whose progress divisor
`num_simulations // 10` is nonzero (so the loop completes), after `K`
iterations of the `PMCTS.search` loop on a freshly expanded root, the
root decision node at arena index 0 has exactly `K` visits: each
iteration's back-propagation walks the strictly index-decreasing
first-parent chain from the selected node to the unique parentless node,
the root, and adds one visit to each node on the chain. -/
theorem root_visits_after_iterations (rng : ℕ → ℕ → ℕ) (b : Board) (die : ℕ)
    (player : ℤ) (budget n s : ℕ) (hdiv : budget / 10 ≠ 0) :
    root_visits_after budget rng n s (init_tree b die player) = some n := by
  rw [search_loop_visits budget rng hdiv n s _ (init_tree_inv b die player)]
  rw [init_tree_root_visits]
  exact congrArg some (by omega)

theorem root_visits_after_iterations_witness :
    10 / 10 ≠ 0 ∧ root_visits_after 10 rngW 2 0 (init_tree bC8 1 (-1)) = some 2 :=
  ⟨by decide, root_visits_after_iterations rngW bC8 1 (-1) 10 2 0 (by decide)⟩
